import Mathlib

/-!
Verification of the module-tree traversal and instrumentation utilities of a
quantisation research harness (`lib/utils.py`, `evalnet.py`).

A network is a hierarchical module tree.  Each module has a runtime type and an
ordered association list of named child modules (PyTorch's `_modules` dict,
iterated by `named_children()` in insertion order).
-/

namespace Py

/-- The runtime type of a module, as tested by `type(child) in [...]` in the
Python source.  Types not mentioned by the source are collapsed into `Other`. -/
inductive ModuleType where
  | QuantizableConvRelu
  | ConvReLU2d
  | LinearReLU
  | Identity
  | Dropout
  | MaxPool2d
  | AdaptiveAvgPool2d
  | Conv2d
  | Linear
  | Other (tyName : String)
deriving DecidableEq

/-- A module tree: a runtime type together with the ordered list of
(name, child) pairs held in `_modules`. -/
inductive Module where
  | mk (ty : ModuleType) (children : List (String × Module))

/-- `type(m)` -/
def Module.ty : Module → ModuleType
  | .mk t _ => t

/-- `m._modules`, i.e. the (name, child) pairs yielded by `m.named_children()`. -/
def Module.children : Module → List (String × Module)
  | .mk _ cs => cs

/-- `seq_leaf_types` in `iter_trackable_modules_helper_`. -/
def seq_leaf_types : List ModuleType :=
  [.QuantizableConvRelu, .ConvReLU2d, .LinearReLU]

/-- `ignore` in `iter_trackable_modules_helper_`. -/
def ignoreTypes : List ModuleType :=
  [.Identity, .Dropout, .MaxPool2d, .AdaptiveAvgPool2d]

/-- `leaves` in `iter_quantisable_modules_helper_`. -/
def quantLeaves : List ModuleType := [.Conv2d, .Linear]

/-- `full_name = name if parent_name is None else f"{parent_name}.{name}"`. -/
def fullName (parent_name : Option String) (name : String) : String :=
  match parent_name with
  | none => name
  | some p => p ++ "." ++ name

mutual

/-- Embedding of `iter_trackable_modules_helper_(module, parent_name)`:
the list of pairs the Python generator yields, in yield order. -/
def iter_trackable_modules_helper_ : Module → Option String → List (String × Module)
  | .mk _ cs, parent_name => trackChildren cs parent_name

/-- The `for name, child in module.named_children()` loop body of
`iter_trackable_modules_helper_`, over the remaining children. -/
def trackChildren : List (String × Module) → Option String → List (String × Module)
  | [], _ => []
  | (name, child) :: rest, parent_name =>
    let full_name := fullName parent_name name
    ((if child.ty ∈ seq_leaf_types then []
      else iter_trackable_modules_helper_ child (some full_name)) ++
     (if (child.children.length = 0 ∨ child.ty ∈ seq_leaf_types) ∧
          child.ty ∉ ignoreTypes
      then [(full_name, child)] else [])) ++
    trackChildren rest parent_name

end

mutual

/-- Embedding of `iter_quantisable_modules_helper_(module, parent_name)`. -/
def iter_quantisable_modules_helper_ : Module → Option String → List (String × Module)
  | .mk _ cs, parent_name => quantChildren cs parent_name

/-- The loop body of `iter_quantisable_modules_helper_` over the remaining
children. -/
def quantChildren : List (String × Module) → Option String → List (String × Module)
  | [], _ => []
  | (name, child) :: rest, parent_name =>
    let full_name := fullName parent_name name
    (iter_quantisable_modules_helper_ child (some full_name) ++
     (if child.ty ∈ quantLeaves then [(full_name, child)] else [])) ++
    quantChildren rest parent_name

end

/-- `iter_trackable_modules_with_names(module)`. -/
def iter_trackable_modules_with_names (m : Module) : List (String × Module) :=
  iter_trackable_modules_helper_ m none

/-- `iter_trackable_modules(module)`: drops the names. -/
def iter_trackable_modules (m : Module) : List Module :=
  (iter_trackable_modules_helper_ m none).map (fun nc => nc.2)

/-- `iter_quantisable_modules_with_names(module)`. -/
def iter_quantisable_modules_with_names (m : Module) : List (String × Module) :=
  iter_quantisable_modules_helper_ m none

/-- Sanity: a net with one childless `Conv2d` child is yielded by the
trackable iterator. -/
theorem trackable_singleton_conv :
    iter_trackable_modules_with_names (.mk (.Other "Net") [("c", .mk .Conv2d [])]) =
      [("c", .mk .Conv2d [])] := rfl

/-- Sanity: the same net's `Conv2d` child is yielded by the quantisable
iterator. -/
theorem quantisable_singleton_conv :
    iter_quantisable_modules_with_names (.mk (.Other "Net") [("c", .mk .Conv2d [])]) =
      [("c", .mk .Conv2d [])] := rfl

/-- Simultaneous induction over a module and over lists of named children. -/
theorem Module.rec_children (P : Module → Prop) (Q : List (String × Module) → Prop)
    (hmk : ∀ t cs, Q cs → P (.mk t cs))
    (hnil : Q [])
    (hcons : ∀ n c rest, P c → Q rest → Q ((n, c) :: rest)) :
    (∀ m, P m) ∧ (∀ cs, Q cs) := by
  have key : ∀ k, (∀ m : Module, sizeOf m ≤ k → P m) ∧
      (∀ cs : List (String × Module), sizeOf cs ≤ k → Q cs) := by
    intro k
    induction k with
    | zero =>
      refine ⟨fun m hm => ?_, fun cs hcs => ?_⟩
      · cases m with
        | mk t cs => simp at hm
      · cases cs with
        | nil => exact hnil
        | cons a r => simp at hcs
    | succ k ih =>
      refine ⟨fun m hm => ?_, fun cs hcs => ?_⟩
      · cases m with
        | mk t cs =>
          apply hmk
          apply ih.2
          simp at hm
          omega
      · cases cs with
        | nil => exact hnil
        | cons a r =>
          obtain ⟨n, c⟩ := a
          simp at hcs
          exact hcons n c r (ih.1 c (by omega)) (ih.2 r (by omega))
  exact ⟨fun m => (key (sizeOf m)).1 m le_rfl, fun cs => (key (sizeOf cs)).2 cs le_rfl⟩

/-! ### Specification-side descriptions of the traversals

`dfsVisitedNoFused` lists every node the trackable traversal looks at: the
depth-first visit that recurses into every child except those of a fused
(`seq_leaf_types`) type, whose contents are skipped.  `dfsAllNodes` is the full
depth-first visit of every proper descendant.  Both place a node's processed
descendants before the node itself, matching the generators' yield order. -/

mutual

def dfsVisitedNoFused : Module → Option String → List (String × Module)
  | .mk _ cs, parent_name => dfsVisitedNoFusedChildren cs parent_name

def dfsVisitedNoFusedChildren : List (String × Module) → Option String → List (String × Module)
  | [], _ => []
  | (name, child) :: rest, parent_name =>
    let full_name := fullName parent_name name
    ((if child.ty ∈ seq_leaf_types then []
      else dfsVisitedNoFused child (some full_name)) ++ [(full_name, child)]) ++
    dfsVisitedNoFusedChildren rest parent_name

end

mutual

def dfsAllNodes : Module → Option String → List (String × Module)
  | .mk _ cs, parent_name => dfsAllNodesChildren cs parent_name

def dfsAllNodesChildren : List (String × Module) → Option String → List (String × Module)
  | [], _ => []
  | (name, child) :: rest, parent_name =>
    let full_name := fullName parent_name name
    (dfsAllNodes child (some full_name) ++ [(full_name, child)]) ++
    dfsAllNodesChildren rest parent_name

end

/-- The leaf condition of `iter_trackable_modules_helper_`:
`(len(child._modules) == 0 or type(child) in seq_leaf_types) and type(child) not in ignore`. -/
def isTrackableLeaf (c : Module) : Bool :=
  decide ((c.children.length = 0 ∨ c.ty ∈ seq_leaf_types) ∧ c.ty ∉ ignoreTypes)

/-- The leaf condition of `iter_quantisable_modules_helper_`: `type(child) in leaves`. -/
def isQuantLeaf (c : Module) : Bool :=
  decide (c.ty ∈ quantLeaves)

mutual

/-- Number of nodes of a module tree (the root included). -/
def Module.size : Module → Nat
  | .mk _ cs => 1 + sizeChildren cs

/-- Total number of nodes in a list of named children. -/
def sizeChildren : List (String × Module) → Nat
  | [] => 0
  | (_, c) :: rest => Module.size c + sizeChildren rest

end

/-- The trackable traversal yields exactly the visited nodes (fused-leaf
contents excluded from the visit) that satisfy the leaf condition. -/
theorem trackable_eq_filter_visited :
    ∀ (m : Module) (p : Option String),
      iter_trackable_modules_helper_ m p =
        (dfsVisitedNoFused m p).filter (fun nc => isTrackableLeaf nc.2) := by
  have h := Module.rec_children
    (fun m => ∀ p, iter_trackable_modules_helper_ m p =
        (dfsVisitedNoFused m p).filter (fun nc => isTrackableLeaf nc.2))
    (fun cs => ∀ p, trackChildren cs p =
        (dfsVisitedNoFusedChildren cs p).filter (fun nc => isTrackableLeaf nc.2))
    (by
      intro t cs hq p
      simpa [iter_trackable_modules_helper_, dfsVisitedNoFused] using hq p)
    (by
      intro p
      simp [trackChildren, dfsVisitedNoFusedChildren])
    (by
      intro n c rest hc hrest p
      simp only [trackChildren, dfsVisitedNoFusedChildren, List.filter_append]
      rw [hrest p]
      by_cases hseq : c.ty ∈ seq_leaf_types
      · simp only [if_pos hseq, List.filter_cons, List.filter_nil]
        by_cases hleaf : (c.children.length = 0 ∨ c.ty ∈ seq_leaf_types) ∧ c.ty ∉ ignoreTypes
        · simp only [isTrackableLeaf]
          rw [if_pos hleaf, if_pos (decide_eq_true hleaf)]
        · simp only [isTrackableLeaf]
          rw [if_neg hleaf, if_neg (by simpa only [decide_eq_true_eq] using hleaf)]
      · simp only [if_neg hseq, List.filter_cons, List.filter_nil]
        rw [hc (some (fullName p n))]
        by_cases hleaf : (c.children.length = 0 ∨ c.ty ∈ seq_leaf_types) ∧ c.ty ∉ ignoreTypes
        · simp only [isTrackableLeaf]
          rw [if_pos hleaf, if_pos (decide_eq_true hleaf)]
        · simp only [isTrackableLeaf]
          rw [if_neg hleaf, if_neg (by simpa only [decide_eq_true_eq] using hleaf)])
  exact h.1

/-- The quantisable traversal yields exactly the (all-nodes) visited nodes of
convolution/linear type. -/
theorem quantisable_eq_filter_all :
    ∀ (m : Module) (p : Option String),
      iter_quantisable_modules_helper_ m p =
        (dfsAllNodes m p).filter (fun nc => isQuantLeaf nc.2) := by
  have h := Module.rec_children
    (fun m => ∀ p, iter_quantisable_modules_helper_ m p =
        (dfsAllNodes m p).filter (fun nc => isQuantLeaf nc.2))
    (fun cs => ∀ p, quantChildren cs p =
        (dfsAllNodesChildren cs p).filter (fun nc => isQuantLeaf nc.2))
    (by
      intro t cs hq p
      simpa [iter_quantisable_modules_helper_, dfsAllNodes] using hq p)
    (by
      intro p
      simp [quantChildren, dfsAllNodesChildren])
    (by
      intro n c rest hc hrest p
      simp only [quantChildren, dfsAllNodesChildren, List.filter_append]
      rw [hrest p, hc (some (fullName p n))]
      by_cases hq : c.ty ∈ quantLeaves
      · simp [isQuantLeaf, hq]
      · simp [isQuantLeaf, hq])
  exact h.1

/-- The full depth-first visit reaches every proper descendant:
its length is the tree size minus the root. -/
theorem dfsAllNodes_length :
    ∀ (m : Module) (p : Option String),
      (dfsAllNodes m p).length + 1 = Module.size m := by
  have h := Module.rec_children
    (fun m => ∀ p, (dfsAllNodes m p).length + 1 = Module.size m)
    (fun cs => ∀ p, (dfsAllNodesChildren cs p).length = sizeChildren cs)
    (by
      intro t cs hq p
      simp [dfsAllNodes, Module.size, hq p]
      omega)
    (by
      intro p
      simp [dfsAllNodesChildren, sizeChildren])
    (by
      intro n c rest hc hrest p
      simp [dfsAllNodesChildren, sizeChildren, hrest p]
      have := hc (some (fullName p n))
      omega)
  exact h.1

/-- A pair yielded by the trackable traversal satisfies the leaf condition. -/
theorem mem_trackable_isTrackableLeaf {m : Module} {p : Option String}
    {nc : String × Module} (h : nc ∈ iter_trackable_modules_helper_ m p) :
    isTrackableLeaf nc.2 = true := by
  rw [trackable_eq_filter_visited] at h
  exact (List.mem_filter.mp h).2

/-- A pair yielded by the quantisable traversal has convolution/linear type. -/
theorem mem_quantisable_isQuantLeaf {m : Module} {p : Option String}
    {nc : String × Module} (h : nc ∈ iter_quantisable_modules_helper_ m p) :
    isQuantLeaf nc.2 = true := by
  rw [quantisable_eq_filter_all] at h
  exact (List.mem_filter.mp h).2

/-- C1: the claim that for every module tree, the set of modules yielded by
`iter_trackable_modules` and the set yielded by
`iter_quantisable_modules_with_names` are disjoint is FALSE: a childless
`Conv2d` child is yielded by both. -/
theorem C1_counterexample :
    ¬ (∀ (net : Module), ∀ m ∈ iter_trackable_modules net,
        m ∉ (iter_quantisable_modules_with_names net).map (fun nc => nc.2)) := by
  intro h
  exact h (.mk (.Other "Net") [("conv", .mk .Conv2d [])]) (.mk .Conv2d [])
    (List.Mem.head _) (List.Mem.head _)

/-- C1 (amended): the trackable and quantisable yields are not disjoint; a
module yielded by both is exactly a childless convolution/linear module.  Any
module in both sets has type `Conv2d` or `Linear` and no children. -/
theorem C1_overlap_is_childless_convlinear (net : Module) (m : Module)
    (h1 : m ∈ iter_trackable_modules net)
    (h2 : m ∈ (iter_quantisable_modules_with_names net).map (fun nc => nc.2)) :
    m.ty ∈ quantLeaves ∧ m.children = [] := by
  obtain ⟨nc, hncmem, hnc⟩ := List.mem_map.mp h2
  obtain ⟨nc', hncmem', hnc'⟩ := List.mem_map.mp h1
  have hquant : m.ty ∈ quantLeaves := by
    have := mem_quantisable_isQuantLeaf hncmem
    rw [hnc] at this
    simpa [isQuantLeaf] using this
  have htrack := mem_trackable_isTrackableLeaf hncmem'
  rw [hnc'] at htrack
  simp only [isTrackableLeaf, decide_eq_true_eq] at htrack
  refine ⟨hquant, ?_⟩
  have hq2 : m.ty = ModuleType.Conv2d ∨ m.ty = ModuleType.Linear := by
    simpa [quantLeaves] using hquant
  have hne : m.ty ∉ seq_leaf_types := by
    rcases hq2 with h | h <;> rw [h] <;> simp [seq_leaf_types]
  have hlen : m.children.length = 0 := by tauto
  exact List.length_eq_zero.mp hlen

/-- Witness for C1 (amended) at a single-`Conv2d` network. -/
theorem C1_overlap_is_childless_convlinear_witness :
    (Module.mk .Conv2d []) ∈
        iter_trackable_modules (.mk (.Other "Net") [("conv", .mk .Conv2d [])]) ∧
      ((Module.mk .Conv2d []).ty ∈ quantLeaves ∧
        (Module.mk .Conv2d []).children = []) :=
  ⟨List.Mem.head _,
    C1_overlap_is_childless_convlinear (.mk (.Other "Net") [("conv", .mk .Conv2d [])])
      (.mk .Conv2d []) (List.Mem.head _) (List.Mem.head _)⟩

/-- C2: `iter_trackable_modules_helper_` yields exactly those visited nodes
that have no child modules or are of a fused-operation leaf type
(`QuantizableConvRelu`, `ConvReLU2d`, `LinearReLU`) and are not of an excluded
type (`Identity`, `Dropout`, `MaxPool2d`, `AdaptiveAvgPool2d`); the visit
(`dfsVisitedNoFused`) does not descend into fused-operation leaves. -/
theorem C2_trackable_yields_iff_leaf (m : Module) (p : Option String) :
    iter_trackable_modules_helper_ m p =
      (dfsVisitedNoFused m p).filter (fun nc => isTrackableLeaf nc.2) :=
  trackable_eq_filter_visited m p

/-- C3: `iter_quantisable_modules_helper_` yields exactly the nodes of
convolution (`Conv2d`) or linear (`Linear`) runtime type, children or not, and
its visit covers every node: the full visit list has one entry per non-root
node of the tree. -/
theorem C3_quantisable_yields_iff_convlinear (m : Module) (p : Option String) :
    iter_quantisable_modules_helper_ m p =
        (dfsAllNodes m p).filter (fun nc => isQuantLeaf nc.2) ∧
      (dfsAllNodes m p).length + 1 = Module.size m :=
  ⟨quantisable_eq_filter_all m p, dfsAllNodes_length m p⟩

/-! ### Names, paths and attribute lookup

`getattr(module, s)` on a PyTorch module resolves a child-module name through
`_modules`; we model exactly that resolution.  `wellFormedB` states what
PyTorch's `add_module` guarantees: child names at each node are pairwise
distinct.  `dotFreeB` states its other guarantee: a child name contains no
dot. -/

/-- Resolve a name in a `_modules` association list (first match). -/
def findChild (cs : List (String × Module)) (s : String) : Option Module :=
  (cs.find? (fun nc => nc.1 == s)).map (fun nc => nc.2)

/-- `getattr(m, s)` restricted to child modules. -/
def getattrFromModules (m : Module) (s : String) : Option Module :=
  findChild m.children s

/-- Follow a sequence of child names from a module. -/
def followPath : Module → List String → Option Module
  | m, [] => some m
  | m, s :: rest =>
    match getattrFromModules m s with
    | some c => followPath c rest
    | none => none

/-- Follow a nonempty sequence of child names starting from a children list. -/
def followChildren (cs : List (String × Module)) : List String → Option Module
  | [] => none
  | s :: rest =>
    match findChild cs s with
    | some c => followPath c rest
    | none => none

theorem followPath_mk (t : ModuleType) (cs : List (String × Module))
    (s : String) (rest : List String) :
    followPath (.mk t cs) (s :: rest) = followChildren cs (s :: rest) := rfl

mutual

/-- Child names are pairwise distinct at every node. -/
def wellFormedB : Module → Bool
  | .mk _ cs => wellFormedChildrenB cs

/-- Well-formedness of a children list. -/
def wellFormedChildrenB : List (String × Module) → Bool
  | [] => true
  | (n, c) :: rest =>
    rest.all (fun nc => nc.1 != n) && wellFormedB c && wellFormedChildrenB rest

end

mutual

/-- No child name anywhere in the tree contains a dot. -/
def dotFreeB : Module → Bool
  | .mk _ cs => dotFreeChildrenB cs

/-- Dot-freeness of a children list. -/
def dotFreeChildrenB : List (String × Module) → Bool
  | [] => true
  | (n, c) :: rest =>
    (!(n.toList.contains '.')) && dotFreeB c && dotFreeChildrenB rest

end

/-- Dot-joining of a name sequence, as `fullName` accumulates it. -/
def joinDot : List String → String
  | [] => ""
  | [s] => s
  | s :: rest => s ++ "." ++ joinDot rest

theorem joinDot_cons (s : String) (l : List String) (h : l ≠ []) :
    joinDot (s :: l) = s ++ "." ++ joinDot l := by
  cases l with
  | nil => exact absurd rfl h
  | cons t ts => rfl

/-- Under `some q`, the trackable traversal yields the same modules as under
`none`, with `q` and a dot prefixed to each name. -/
theorem trackable_shift :
    ∀ (m : Module) (q : String),
      iter_trackable_modules_helper_ m (some q) =
        (iter_trackable_modules_helper_ m none).map
          (fun nc => (q ++ "." ++ nc.1, nc.2)) := by
  have h := Module.rec_children
    (fun m => ∀ q, iter_trackable_modules_helper_ m (some q) =
        (iter_trackable_modules_helper_ m none).map
          (fun nc => (q ++ "." ++ nc.1, nc.2)))
    (fun cs => ∀ q, trackChildren cs (some q) =
        (trackChildren cs none).map (fun nc => (q ++ "." ++ nc.1, nc.2)))
    (by
      intro t cs hq q
      simpa [iter_trackable_modules_helper_] using hq q)
    (by intro q; simp [trackChildren])
    (by
      intro n c rest hc hrest q
      simp only [trackChildren, List.map_append, fullName]
      rw [hrest q]
      congr 1
      congr 1
      · by_cases hseq : c.ty ∈ seq_leaf_types
        · rw [if_pos hseq, if_pos hseq]
          simp
        · rw [if_neg hseq, if_neg hseq, hc n, hc (q ++ "." ++ n), List.map_map]
          have hfg : ((fun nc : String × Module => (q ++ "." ++ nc.1, nc.2)) ∘
              (fun nc : String × Module => (n ++ "." ++ nc.1, nc.2))) =
              fun nc : String × Module => ((q ++ "." ++ n) ++ "." ++ nc.1, nc.2) := by
            funext nc
            simp [Function.comp, String.append_assoc]
          rw [hfg]
      · by_cases hcond : (c.children.length = 0 ∨ c.ty ∈ seq_leaf_types) ∧
            c.ty ∉ ignoreTypes
        · rw [if_pos hcond, if_pos hcond]
          simp
        · rw [if_neg hcond, if_neg hcond]
          simp)
  exact h.1

/-- Under `some q`, the quantisable traversal yields the same modules as under
`none`, with `q` and a dot prefixed to each name. -/
theorem quantisable_shift :
    ∀ (m : Module) (q : String),
      iter_quantisable_modules_helper_ m (some q) =
        (iter_quantisable_modules_helper_ m none).map
          (fun nc => (q ++ "." ++ nc.1, nc.2)) := by
  have h := Module.rec_children
    (fun m => ∀ q, iter_quantisable_modules_helper_ m (some q) =
        (iter_quantisable_modules_helper_ m none).map
          (fun nc => (q ++ "." ++ nc.1, nc.2)))
    (fun cs => ∀ q, quantChildren cs (some q) =
        (quantChildren cs none).map (fun nc => (q ++ "." ++ nc.1, nc.2)))
    (by
      intro t cs hq q
      simpa [iter_quantisable_modules_helper_] using hq q)
    (by intro q; simp [quantChildren])
    (by
      intro n c rest hc hrest q
      simp only [quantChildren, List.map_append, fullName]
      rw [hrest q]
      congr 1
      congr 1
      · rw [hc n, hc (q ++ "." ++ n), List.map_map]
        have hfg : ((fun nc : String × Module => (q ++ "." ++ nc.1, nc.2)) ∘
            (fun nc : String × Module => (n ++ "." ++ nc.1, nc.2))) =
            fun nc : String × Module => ((q ++ "." ++ n) ++ "." ++ nc.1, nc.2) := by
          funext nc
          simp [Function.comp, String.append_assoc]
        rw [hfg]
      · by_cases hcond : c.ty ∈ quantLeaves
        · rw [if_pos hcond, if_pos hcond]
          simp
        · rw [if_neg hcond, if_neg hcond]
          simp)
  exact h.1

/-- Arriving in a children list whose head name differs from the looked-up
name just skips the head. -/
theorem followChildren_cons_of_ne (n : String) (c : Module)
    (rest : List (String × Module)) (s : String) (p' : List String)
    (hne : n ≠ s) :
    followChildren ((n, c) :: rest) (s :: p') = followChildren rest (s :: p') := by
  simp only [followChildren, findChild]
  rw [List.find?_cons_of_neg]
  simpa using hne

/-- Looking up the head name finds the head child. -/
theorem followChildren_cons_self (n : String) (c : Module)
    (rest : List (String × Module)) (p' : List String) :
    followChildren ((n, c) :: rest) (n :: p') = followPath c p' := by
  simp only [followChildren, findChild]
  rw [List.find?_cons_of_pos]
  · rfl
  · simp

/-- Every pair yielded by the trackable traversal of a well-formed tree names
a child-name path from the root that resolves to the yielded module. -/
theorem trackable_mem_path :
    ∀ (m : Module), wellFormedB m = true →
      ∀ nm c, (nm, c) ∈ iter_trackable_modules_helper_ m none →
        ∃ path, path ≠ [] ∧ nm = joinDot path ∧ followPath m path = some c := by
  have h := Module.rec_children
    (fun m => wellFormedB m = true →
      ∀ nm c, (nm, c) ∈ iter_trackable_modules_helper_ m none →
        ∃ path, path ≠ [] ∧ nm = joinDot path ∧ followPath m path = some c)
    (fun cs => wellFormedChildrenB cs = true →
      ∀ nm c, (nm, c) ∈ trackChildren cs none →
        ∃ path, path ≠ [] ∧ nm = joinDot path ∧ followChildren cs path = some c)
    (by
      intro t cs hq hwf nm c hmem
      have hwf' : wellFormedChildrenB cs = true := by
        simpa [wellFormedB] using hwf
      have hmem' : (nm, c) ∈ trackChildren cs none := by
        simpa [iter_trackable_modules_helper_] using hmem
      obtain ⟨path, hne, hjoin, hfollow⟩ := hq hwf' nm c hmem'
      refine ⟨path, hne, hjoin, ?_⟩
      cases path with
      | nil => exact absurd rfl hne
      | cons s rest => rw [followPath_mk]; exact hfollow)
    (by
      intro _ nm c hmem
      simp [trackChildren] at hmem)
    (by
      intro n c rest hc hrest hwf nm c' hmem
      simp only [wellFormedChildrenB, Bool.and_eq_true, List.all_eq_true,
        bne_iff_ne, ne_eq] at hwf
      obtain ⟨⟨hnames, hwfc⟩, hwfrest⟩ := hwf
      simp only [trackChildren, fullName, List.append_assoc, List.mem_append] at hmem
      rcases hmem with hmem | hmem | hmem
      · by_cases hseq : c.ty ∈ seq_leaf_types
        · rw [if_pos hseq] at hmem
          simp at hmem
        · rw [if_neg hseq, trackable_shift c n] at hmem
          obtain ⟨⟨nm', c''⟩, hmem', heq⟩ := List.mem_map.mp hmem
          obtain ⟨heq1, heq2⟩ := Prod.mk.injEq .. ▸ heq
          obtain ⟨path', hne', hjoin', hfollow'⟩ := hc hwfc nm' c'' hmem'
          refine ⟨n :: path', by simp, ?_, ?_⟩
          · rw [joinDot_cons n path' hne', ← hjoin', heq1]
          · rw [followChildren_cons_self, hfollow']
            exact congrArg some heq2
      · by_cases hcond : (c.children.length = 0 ∨ c.ty ∈ seq_leaf_types) ∧
            c.ty ∉ ignoreTypes
        · rw [if_pos hcond] at hmem
          simp only [List.mem_singleton, Prod.mk.injEq] at hmem
          obtain ⟨h1, h2⟩ := hmem
          refine ⟨[n], by simp, by simpa [joinDot] using h1, ?_⟩
          rw [followChildren_cons_self, h2]
          rfl
        · rw [if_neg hcond] at hmem
          simp at hmem
      · obtain ⟨path, hne, hjoin, hfollow⟩ := hrest hwfrest nm c' hmem
        cases path with
        | nil => exact absurd rfl hne
        | cons s p' =>
          cases hfind : findChild rest s with
          | none => simp [followChildren, hfind] at hfollow
          | some c₀ =>
            obtain ⟨nc₀, hfind?, hsnd⟩ := Option.map_eq_some'.mp hfind
            have hbeq := List.find?_some hfind?
            have hs : nc₀.1 = s := by simpa using hbeq
            have hmem₀ := List.mem_of_find?_eq_some hfind?
            have hns : n ≠ s := fun hcontra => hnames nc₀ hmem₀ (by rw [hs, hcontra])
            refine ⟨s :: p', by simp, hjoin, ?_⟩
            rw [followChildren_cons_of_ne n c rest s p' hns]
            exact hfollow)
  exact h.1

/-- Every pair yielded by the quantisable traversal of a well-formed tree
names a child-name path from the root that resolves to the yielded module. -/
theorem quantisable_mem_path :
    ∀ (m : Module), wellFormedB m = true →
      ∀ nm c, (nm, c) ∈ iter_quantisable_modules_helper_ m none →
        ∃ path, path ≠ [] ∧ nm = joinDot path ∧ followPath m path = some c := by
  have h := Module.rec_children
    (fun m => wellFormedB m = true →
      ∀ nm c, (nm, c) ∈ iter_quantisable_modules_helper_ m none →
        ∃ path, path ≠ [] ∧ nm = joinDot path ∧ followPath m path = some c)
    (fun cs => wellFormedChildrenB cs = true →
      ∀ nm c, (nm, c) ∈ quantChildren cs none →
        ∃ path, path ≠ [] ∧ nm = joinDot path ∧ followChildren cs path = some c)
    (by
      intro t cs hq hwf nm c hmem
      have hwf' : wellFormedChildrenB cs = true := by
        simpa [wellFormedB] using hwf
      have hmem' : (nm, c) ∈ quantChildren cs none := by
        simpa [iter_quantisable_modules_helper_] using hmem
      obtain ⟨path, hne, hjoin, hfollow⟩ := hq hwf' nm c hmem'
      refine ⟨path, hne, hjoin, ?_⟩
      cases path with
      | nil => exact absurd rfl hne
      | cons s rest => rw [followPath_mk]; exact hfollow)
    (by
      intro _ nm c hmem
      simp [quantChildren] at hmem)
    (by
      intro n c rest hc hrest hwf nm c' hmem
      simp only [wellFormedChildrenB, Bool.and_eq_true, List.all_eq_true,
        bne_iff_ne, ne_eq] at hwf
      obtain ⟨⟨hnames, hwfc⟩, hwfrest⟩ := hwf
      simp only [quantChildren, fullName, List.append_assoc, List.mem_append] at hmem
      rcases hmem with hmem | hmem | hmem
      · rw [quantisable_shift c n] at hmem
        obtain ⟨⟨nm', c''⟩, hmem', heq⟩ := List.mem_map.mp hmem
        obtain ⟨heq1, heq2⟩ := Prod.mk.injEq .. ▸ heq
        obtain ⟨path', hne', hjoin', hfollow'⟩ := hc hwfc nm' c'' hmem'
        refine ⟨n :: path', by simp, ?_, ?_⟩
        · rw [joinDot_cons n path' hne', ← hjoin', heq1]
        · rw [followChildren_cons_self, hfollow']
          exact congrArg some heq2
      · by_cases hcond : c.ty ∈ quantLeaves
        · rw [if_pos hcond] at hmem
          simp only [List.mem_singleton, Prod.mk.injEq] at hmem
          obtain ⟨h1, h2⟩ := hmem
          refine ⟨[n], by simp, by simpa [joinDot] using h1, ?_⟩
          rw [followChildren_cons_self, h2]
          rfl
        · rw [if_neg hcond] at hmem
          simp at hmem
      · obtain ⟨path, hne, hjoin, hfollow⟩ := hrest hwfrest nm c' hmem
        cases path with
        | nil => exact absurd rfl hne
        | cons s p' =>
          cases hfind : findChild rest s with
          | none => simp [followChildren, hfind] at hfollow
          | some c₀ =>
            obtain ⟨nc₀, hfind?, hsnd⟩ := Option.map_eq_some'.mp hfind
            have hbeq := List.find?_some hfind?
            have hs : nc₀.1 = s := by simpa using hbeq
            have hmem₀ := List.mem_of_find?_eq_some hfind?
            have hns : n ≠ s := fun hcontra => hnames nc₀ hmem₀ (by rw [hs, hcontra])
            refine ⟨s :: p', by simp, hjoin, ?_⟩
            rw [followChildren_cons_of_ne n c rest s p' hns]
            exact hfollow)
  exact h.1

/-- C5: every (name, node) pair yielded by `iter_trackable_modules_with_names`
or `iter_quantisable_modules_with_names` on a well-formed module tree carries
as name the dot-joined sequence of child names of a path from the root to the
yielded node. -/
theorem C5_yielded_names_are_dotted_paths (m : Module)
    (hwf : wellFormedB m = true) (nm : String) (c : Module)
    (h : (nm, c) ∈ iter_trackable_modules_with_names m ∨
         (nm, c) ∈ iter_quantisable_modules_with_names m) :
    ∃ path, path ≠ [] ∧ nm = joinDot path ∧ followPath m path = some c := by
  rcases h with h | h
  · exact trackable_mem_path m hwf nm c h
  · exact quantisable_mem_path m hwf nm c h

/-- Witness for C5 at a two-level network: the pair `("f.0", Conv2d)` yielded
by the trackable traversal names the path `["f", "0"]`. -/
theorem C5_yielded_names_are_dotted_paths_witness :
    wellFormedB (.mk (.Other "Net")
        [("f", .mk (.Other "Seq") [("0", .mk .Conv2d [])])]) = true ∧
      ∃ path, path ≠ [] ∧ "f.0" = joinDot path ∧
        followPath (.mk (.Other "Net")
          [("f", .mk (.Other "Seq") [("0", .mk .Conv2d [])])]) path =
          some (.mk .Conv2d []) :=
  ⟨rfl,
    C5_yielded_names_are_dotted_paths
      (.mk (.Other "Net") [("f", .mk (.Other "Seq") [("0", .mk .Conv2d [])])])
      rfl "f.0" (.mk .Conv2d []) (Or.inl (List.Mem.head _))⟩

/-! ### `get_module`: dotted-path attribute lookup -/

/-- Python's `s.split('.')`: split the character list on every dot. -/
def pySplitDot (s : String) : List String :=
  (s.toList.splitOn '.').map (fun l => String.mk l)

/-- `get_module(model, submodule_key)` from `lib/utils.py`: split the key on
dots and chain `getattr` through the child modules. -/
def get_module (model : Module) (submodule_key : String) : Option Module :=
  (pySplitDot submodule_key).foldlM (fun cur s => getattrFromModules cur s) model

/-- The `getattr` chain of `get_module` is `followPath`. -/
theorem foldlM_getattr_eq_followPath :
    ∀ (toks : List String) (m : Module),
      toks.foldlM (fun cur s => getattrFromModules cur s) m = followPath m toks := by
  intro toks
  induction toks with
  | nil => intro m; rfl
  | cons s rest ih =>
    intro m
    rw [List.foldlM_cons]
    cases h : getattrFromModules m s with
    | none => simp [followPath, h]
    | some c => simp [followPath, h, ih c]

/-- A name resolved in a dot-free children list is dot-free, and the resolved
child is dot-free. -/
theorem findChild_dotFree {cs : List (String × Module)} {s : String} {c : Module}
    (hdf : dotFreeChildrenB cs = true) (h : findChild cs s = some c) :
    s.toList.contains '.' = false ∧ dotFreeB c = true := by
  induction cs with
  | nil => simp [findChild] at h
  | cons nc rest ih =>
    obtain ⟨n, c₀⟩ := nc
    simp only [dotFreeChildrenB, Bool.and_eq_true] at hdf
    obtain ⟨⟨hn, hc₀⟩, hrest⟩ := hdf
    by_cases hbeq : (n == s) = true
    · have hhead0 : List.find? (fun nc : String × Module => nc.1 == s) ((n, c₀) :: rest) =
          some (n, c₀) :=
        List.find?_cons_of_pos _ (by simpa using hbeq)
      have hhead : findChild ((n, c₀) :: rest) s = some c₀ := by
        simp [findChild, hhead0]
      rw [hhead] at h
      have hc : c₀ = c := by injection h
      have hns : n = s := by simpa using hbeq
      subst hc
      subst hns
      exact ⟨by simpa using hn, hc₀⟩
    · have htail0 : List.find? (fun nc : String × Module => nc.1 == s) ((n, c₀) :: rest) =
          List.find? (fun nc => nc.1 == s) rest :=
        List.find?_cons_of_neg _ (by simpa using hbeq)
      have htail : findChild ((n, c₀) :: rest) s = findChild rest s := by
        simp [findChild, htail0]
      rw [htail] at h
      exact ih hrest h

/-- Every name along a resolvable path in a dot-free tree is dot-free. -/
theorem followPath_dotFree :
    ∀ (path : List String) (m c : Module),
      dotFreeB m = true → followPath m path = some c →
      ∀ s ∈ path, s.toList.contains '.' = false := by
  intro path
  induction path with
  | nil =>
    intro m c _ _ s hs
    simp at hs
  | cons s rest ih =>
    intro m c hdf hfollow t ht
    cases hg : getattrFromModules m s with
    | none => simp [followPath, hg] at hfollow
    | some c₁ =>
      have hdfc : dotFreeChildrenB m.children = true := by
        cases m with
        | mk ty cs => simpa [dotFreeB, Module.children] using hdf
      obtain ⟨hsdf, hc₁df⟩ := findChild_dotFree hdfc hg
      simp only [followPath, hg] at hfollow
      rcases List.mem_cons.mp ht with rfl | ht2
      · exact hsdf
      · exact ih c₁ c hc₁df hfollow t ht2

/-- Splitting on `'.'` undoes dot-joining, for a nonempty dot-free name list. -/
theorem pySplitDot_joinDot :
    ∀ (path : List String), path ≠ [] →
      (∀ s ∈ path, s.toList.contains '.' = false) →
      pySplitDot (joinDot path) = path := by
  intro path
  induction path with
  | nil => intro h; exact absurd rfl h
  | cons s rest ih =>
    intro _ hdf
    have hs : ∀ x ∈ s.toList, ¬((x == '.') = true) := by
      intro x hx hcontra
      have hx2 : x = '.' := by simpa using hcontra
      subst hx2
      have : s.toList.contains '.' = true := List.elem_eq_true_of_mem hx
      rw [hdf s (List.mem_cons_self s rest)] at this
      cases this
    cases rest with
    | nil =>
      show pySplitDot (joinDot [s]) = [s]
      have h1 : joinDot [s] = s := rfl
      rw [h1]
      unfold pySplitDot
      rw [show s.toList.splitOn '.' = [s.toList] from List.splitOnP_eq_single _ _ hs]
      simp
    | cons t ts =>
      have hrest : pySplitDot (joinDot (t :: ts)) = t :: ts :=
        ih (by simp) (fun x hx => hdf x (List.mem_cons_of_mem s hx))
      have h1 : joinDot (s :: t :: ts) = s ++ "." ++ joinDot (t :: ts) := rfl
      rw [h1]
      unfold pySplitDot
      have htl : (s ++ "." ++ joinDot (t :: ts)).toList =
          s.toList ++ '.' :: (joinDot (t :: ts)).toList := by
        simp [String.toList, String.data_append]
      rw [htl]
      rw [show (s.toList ++ '.' :: (joinDot (t :: ts)).toList).splitOn '.' =
            s.toList :: ((joinDot (t :: ts)).toList.splitOn '.')
          from List.splitOnP_first _ _ hs '.' (by simp) _]
      simp only [List.map_cons]
      unfold pySplitDot at hrest
      rw [hrest]
      simp

/-- `get_module` on a resolvable dot-free path follows exactly that path. -/
theorem get_module_joinDot (m : Module) (hdf : dotFreeB m = true)
    (path : List String) (c : Module) (hne : path ≠ [])
    (hfollow : followPath m path = some c) :
    get_module m (joinDot path) = some c := by
  unfold get_module
  rw [pySplitDot_joinDot path hne (followPath_dotFree path m c hdf hfollow)]
  rw [foldlM_getattr_eq_followPath]
  exact hfollow

/-- C9: round-trip of naming and lookup.  For a well-formed module tree (child
names pairwise distinct and dot-free, as PyTorch's `add_module` enforces),
`get_module` applied to any (name, child) pair yielded by
`iter_trackable_modules_with_names` or `iter_quantisable_modules_with_names`
returns exactly that child. -/
theorem C9_get_module_roundtrip (m : Module)
    (hwf : wellFormedB m = true) (hdf : dotFreeB m = true)
    (nm : String) (c : Module)
    (h : (nm, c) ∈ iter_trackable_modules_with_names m ∨
         (nm, c) ∈ iter_quantisable_modules_with_names m) :
    get_module m nm = some c := by
  have hpath : ∃ path, path ≠ [] ∧ nm = joinDot path ∧ followPath m path = some c := by
    rcases h with h | h
    · exact trackable_mem_path m hwf nm c h
    · exact quantisable_mem_path m hwf nm c h
  obtain ⟨path, hne, hjoin, hfollow⟩ := hpath
  rw [hjoin]
  exact get_module_joinDot m hdf path c hne hfollow

/-- Witness for C9 at a two-level network: looking up the yielded name
`"f.0"` returns the yielded `Conv2d` child. -/
theorem C9_get_module_roundtrip_witness :
    wellFormedB (.mk (.Other "Net")
        [("f", .mk (.Other "Seq") [("0", .mk .Conv2d [])])]) = true ∧
      get_module (.mk (.Other "Net")
        [("f", .mk (.Other "Seq") [("0", .mk .Conv2d [])])]) "f.0" =
        some (.mk .Conv2d []) :=
  ⟨rfl,
    C9_get_module_roundtrip
      (.mk (.Other "Net") [("f", .mk (.Other "Seq") [("0", .mk .Conv2d [])])])
      rfl rfl "f.0" (.mk .Conv2d []) (Or.inl (List.Mem.head _))⟩

/-! ### `set_module` and the mutation frame -/

/-- Python exception classes raised (directly or by builtins) in the source. -/
inductive PyErr where
  | attributeError
  | runtimeError
  | typeError
  | valueError
  | fileNotFound
deriving DecidableEq

/-- `setattr(parent, s, newm)` on a parent whose attribute `s` ranges over
child modules: replace the entry named `s` in `_modules`. -/
def setattrChild (cs : List (String × Module)) (s : String) (newm : Module) :
    List (String × Module) :=
  cs.map (fun nc => if nc.1 == s then (nc.1, newm) else nc)

/-- Rebuild the tree after a `setattr` on the node reached by `path`. -/
def updateAt : Module → List String → String → Module → Module
  | .mk t cs, [], last, newm => .mk t (setattrChild cs last newm)
  | .mk t cs, s :: rest, last, newm =>
    .mk t (cs.map (fun nc =>
      if nc.1 == s then (nc.1, updateAt nc.2 rest last newm) else nc))

/-- `set_module(model, submodule_key, module)` from `lib/utils.py`: walk the
leading components with `getattr`, check `hasattr` for the last component,
raise `RuntimeError` if absent, else `setattr`.  The result pairs the raised
error (if any) with the final state of the model; attributes are modelled as
child modules, the attribute space this code manipulates. -/
def set_module (model : Module) (submodule_key : String) (m : Module) :
    Except PyErr Unit × Module :=
  let tokens := pySplitDot submodule_key
  let sub_tokens := tokens.dropLast
  match followPath model sub_tokens with
  | none => (.error .attributeError, model)
  | some cur_mod =>
    if (getattrFromModules cur_mod (tokens.getLastD "")).isSome then
      (.ok (), updateAt model sub_tokens (tokens.getLastD "") m)
    else
      (.error .runtimeError, model)

/-- C10: assuming the leading dotted-path components resolve to a parent
module, `set_module` raises `RuntimeError` exactly when the final component is
not an attribute of that parent, and whenever `set_module` raises (this
`RuntimeError` or anything else), the model is left unchanged. -/
theorem C10_set_module_runtimeError_iff (model : Module) (key : String)
    (newm : Module) (cur_mod : Module)
    (hwalk : followPath model (pySplitDot key).dropLast = some cur_mod) :
    ((set_module model key newm).1 = .error .runtimeError ↔
      getattrFromModules cur_mod ((pySplitDot key).getLastD "") = none) ∧
    (∀ e, (set_module model key newm).1 = .error e →
      (set_module model key newm).2 = model) := by
  simp only [set_module, hwalk]
  cases hg : getattrFromModules cur_mod ((pySplitDot key).getLastD "") with
  | some c => simp [hg]
  | none => simp [hg]

/-- Witness for C10: with one child `"a"` and key `"a.b"`, the walk reaches
`"a"`, the final component `"b"` is missing, `RuntimeError` is raised and the
model is unchanged. -/
theorem C10_set_module_runtimeError_iff_witness :
    followPath (.mk (.Other "M") [("a", .mk (.Other "A") [])])
        (pySplitDot "a.b").dropLast = some (.mk (.Other "A") []) ∧
      (((set_module (.mk (.Other "M") [("a", .mk (.Other "A") [])]) "a.b"
            (.mk .Identity [])).1 = .error .runtimeError ↔
        getattrFromModules (.mk (.Other "A") [])
          ((pySplitDot "a.b").getLastD "") = none) ∧
      (∀ e, (set_module (.mk (.Other "M") [("a", .mk (.Other "A") [])]) "a.b"
            (.mk .Identity [])).1 = .error e →
        (set_module (.mk (.Other "M") [("a", .mk (.Other "A") [])]) "a.b"
            (.mk .Identity [])).2 = .mk (.Other "M") [("a", .mk (.Other "A") [])])) :=
  ⟨rfl,
    C10_set_module_runtimeError_iff (.mk (.Other "M") [("a", .mk (.Other "A") [])])
      "a.b" (.mk .Identity []) (.mk (.Other "A") []) rfl⟩

/-! ### The iterators only read the tree -/

/-- A module occurring somewhere in a tree (the tree itself included). -/
inductive OccursIn : Module → Module → Prop where
  | refl (m : Module) : OccursIn m m
  | child {p c m : Module} {n : String} :
      (n, c) ∈ m.children → OccursIn p c → OccursIn p m

/-- State-passing embedding of running `iter_trackable_modules_with_names` to
completion: the generator body only reads `named_children` and assigns no
attribute, so the state out is the state in. -/
def run_iter_trackable_modules_with_names (st : Module) :
    List (String × Module) × Module :=
  (iter_trackable_modules_helper_ st none, st)

/-- State-passing embedding of running `iter_quantisable_modules_with_names`
to completion. -/
def run_iter_quantisable_modules_with_names (st : Module) :
    List (String × Module) × Module :=
  (iter_quantisable_modules_helper_ st none, st)

/-- Every module yielded by the trackable traversal is a node of the input. -/
theorem trackable_mem_occursIn :
    ∀ (m : Module) (p : Option String) (nc : String × Module),
      nc ∈ iter_trackable_modules_helper_ m p → OccursIn nc.2 m := by
  have h := Module.rec_children
    (fun m => ∀ p nc, nc ∈ iter_trackable_modules_helper_ m p → OccursIn nc.2 m)
    (fun cs => ∀ p nc, nc ∈ trackChildren cs p →
      ∃ e ∈ cs, OccursIn nc.2 e.2)
    (by
      intro t cs hq p nc hmem
      have hmem2 : nc ∈ trackChildren cs p := by
        simpa [iter_trackable_modules_helper_] using hmem
      obtain ⟨e, hecs, hocc⟩ := hq p nc hmem2
      obtain ⟨n', c'⟩ := e
      have hmem3 : (n', c') ∈ (Module.mk t cs).children := by
        simpa [Module.children] using hecs
      exact OccursIn.child hmem3 hocc)
    (by
      intro p nc hmem
      simp [trackChildren] at hmem)
    (by
      intro n c rest hc hrest p nc hmem
      simp only [trackChildren, List.append_assoc, List.mem_append] at hmem
      rcases hmem with hmem | hmem | hmem
      · by_cases hseq : c.ty ∈ seq_leaf_types
        · rw [if_pos hseq] at hmem
          simp at hmem
        · rw [if_neg hseq] at hmem
          exact ⟨(n, c), List.mem_cons_self _ _, hc _ nc hmem⟩
      · by_cases hcond : (c.children.length = 0 ∨ c.ty ∈ seq_leaf_types) ∧
            c.ty ∉ ignoreTypes
        · rw [if_pos hcond] at hmem
          simp only [List.mem_singleton] at hmem
          subst hmem
          exact ⟨(n, c), List.mem_cons_self _ _, OccursIn.refl c⟩
        · rw [if_neg hcond] at hmem
          simp at hmem
      · obtain ⟨e, hecs, hocc⟩ := hrest p nc hmem
        exact ⟨e, List.mem_cons_of_mem _ hecs, hocc⟩)
  exact h.1

/-- Every module yielded by the quantisable traversal is a node of the
input. -/
theorem quantisable_mem_occursIn :
    ∀ (m : Module) (p : Option String) (nc : String × Module),
      nc ∈ iter_quantisable_modules_helper_ m p → OccursIn nc.2 m := by
  have h := Module.rec_children
    (fun m => ∀ p nc, nc ∈ iter_quantisable_modules_helper_ m p → OccursIn nc.2 m)
    (fun cs => ∀ p nc, nc ∈ quantChildren cs p →
      ∃ e ∈ cs, OccursIn nc.2 e.2)
    (by
      intro t cs hq p nc hmem
      have hmem2 : nc ∈ quantChildren cs p := by
        simpa [iter_quantisable_modules_helper_] using hmem
      obtain ⟨e, hecs, hocc⟩ := hq p nc hmem2
      obtain ⟨n', c'⟩ := e
      have hmem3 : (n', c') ∈ (Module.mk t cs).children := by
        simpa [Module.children] using hecs
      exact OccursIn.child hmem3 hocc)
    (by
      intro p nc hmem
      simp [quantChildren] at hmem)
    (by
      intro n c rest hc hrest p nc hmem
      simp only [quantChildren, List.append_assoc, List.mem_append] at hmem
      rcases hmem with hmem | hmem | hmem
      · exact ⟨(n, c), List.mem_cons_self _ _, hc _ nc hmem⟩
      · by_cases hcond : c.ty ∈ quantLeaves
        · rw [if_pos hcond] at hmem
          simp only [List.mem_singleton] at hmem
          subst hmem
          exact ⟨(n, c), List.mem_cons_self _ _, OccursIn.refl c⟩
        · rw [if_neg hcond] at hmem
          simp at hmem
      · obtain ⟨e, hecs, hocc⟩ := hrest p nc hmem
        exact ⟨e, List.mem_cons_of_mem _ hecs, hocc⟩)
  exact h.1

/-- C7: the classification iterators only read the module tree: run to
completion they leave the tree (the threaded state) unchanged, and every
module they yield is a node of the input tree itself, not a modified copy. -/
theorem C7_iterators_read_only (m : Module) :
    (run_iter_trackable_modules_with_names m).2 = m ∧
    (run_iter_quantisable_modules_with_names m).2 = m ∧
    (∀ nc ∈ (run_iter_trackable_modules_with_names m).1, OccursIn nc.2 m) ∧
    (∀ nc ∈ (run_iter_quantisable_modules_with_names m).1, OccursIn nc.2 m) :=
  ⟨rfl, rfl,
    fun nc hmem => trackable_mem_occursIn m none nc hmem,
    fun nc hmem => quantisable_mem_occursIn m none nc hmem⟩

/-! ### `get_images`: labels-file loading, joining and stable sorting -/

/-- POSIX `os.path.join(d, n)` with two components: an absolute `n` (leading
slash) replaces `d`; otherwise `d` and `n` are joined with exactly one
slash. -/
def osPathJoin (d n : String) : String :=
  if n.toList.take 1 = ['/'] then n
  else if d = "" then n
  else if d.toList.getLast? = some '/' then d ++ n
  else d ++ "/" ++ n

/-- Python `str.split()` with no argument: split on whitespace, dropping
empty fields. -/
def pySplitWs (s : String) : List String :=
  ((s.toList.splitOnP
      (fun c => c == ' ' || c == '\t' || c == '\n' || c == '\r')).map
    (fun l => String.mk l)).filter (fun t => t != "")

/-- Value of a decimal digit character. -/
def digitVal (c : Char) : Option Nat :=
  if 48 ≤ c.toNat ∧ c.toNat ≤ 57 then some (c.toNat - 48) else none

/-- A nonempty all-digit numeral. -/
def parseDecimal (l : List Char) : Option Nat :=
  match l with
  | [] => none
  | _ => l.foldlM (fun acc c => (digitVal c).map (fun d => acc * 10 + d)) 0

/-- Python `int(s)` on an optionally negated decimal numeral (the form the
labels files contain); `none` models the `ValueError` of a malformed
numeral. -/
def pyInt (s : String) : Option Int :=
  match s.toList with
  | '-' :: rest => (parseDecimal rest).map (fun n => -(n : Int))
  | l => (parseDecimal l).map (fun n => (n : Int))

/-- One labels-file line: `file_name, label = l.split()`, then
`(os.path.join(images_dir, file_name), int(label))`.  `none` models the
`ValueError` a malformed line raises. -/
def parse_images_line (images_dir : String) (l : String) :
    Option (String × Int) :=
  match pySplitWs l with
  | [file_name, label] =>
    (pyInt label).map (fun i => (osPathJoin images_dir file_name, i))
  | _ => none

/-- Lexicographic comparison of character lists by code point — Python's
`str` ordering, which `list.sort(key=...)` compares keys with. -/
def charListLe : List Char → List Char → Bool
  | [], _ => true
  | _ :: _, [] => false
  | a :: as, b :: bs =>
    decide (a.toNat < b.toNat) || (decide (a.toNat = b.toNat) && charListLe as bs)

/-- Lexicographic `≤` on strings by code point. -/
def strLe (a b : String) : Bool := charListLe a.toList b.toList

/-- The sort key of `get_images`: `f[0].split("/")[-1]`, the last
slash-separated component of the joined path. -/
def sortKey (f : String × Int) : String :=
  ((f.1.toList.splitOn '/').map (fun l => String.mk l)).getLastD ""

/-- The comparison `get_images` sorts with: by `sortKey` only. -/
def imageLe (a b : String × Int) : Bool := strLe (sortKey a) (sortKey b)

/-- `get_images(images_dir, labels_file)` as a function of the labels file's
lines: parse each line in order, then sort stably by `sortKey` (Python's
`list.sort` is stable; `List.mergeSort` is the stable sort). -/
def get_images (images_dir : String) (lines : List String) :
    Option (List (String × Int)) :=
  (lines.mapM (parse_images_line images_dir)).map
    (fun images_metadata => images_metadata.mergeSort imageLe)

theorem charListLe_total : ∀ x y, (charListLe x y || charListLe y x) = true := by
  intro x
  induction x with
  | nil => intro y; simp [charListLe]
  | cons a as ih =>
    intro y
    cases y with
    | nil => simp [charListLe]
    | cons b bs =>
      simp only [charListLe, Bool.or_eq_true, Bool.and_eq_true, decide_eq_true_eq]
      rcases Nat.lt_trichotomy a.toNat b.toNat with h | h | h
      · exact Or.inl (Or.inl h)
      · have h2 := ih bs
        simp only [Bool.or_eq_true] at h2
        rcases h2 with h2 | h2
        · exact Or.inl (Or.inr ⟨h, h2⟩)
        · exact Or.inr (Or.inr ⟨h.symm, h2⟩)
      · exact Or.inr (Or.inl h)

theorem charListLe_trans : ∀ x y z, charListLe x y = true →
    charListLe y z = true → charListLe x z = true := by
  intro x
  induction x with
  | nil => intro y z _ _; simp [charListLe]
  | cons a as ih =>
    intro y z hxy hyz
    cases y with
    | nil => simp [charListLe] at hxy
    | cons b bs =>
      cases z with
      | nil => simp [charListLe] at hyz
      | cons c cs =>
        simp only [charListLe, Bool.or_eq_true, Bool.and_eq_true,
          decide_eq_true_eq] at hxy hyz ⊢
        rcases hxy with h1 | ⟨h1, h1'⟩ <;> rcases hyz with h2 | ⟨h2, h2'⟩
        · exact Or.inl (by omega)
        · exact Or.inl (by omega)
        · exact Or.inl (by omega)
        · exact Or.inr ⟨by omega, ih bs cs h1' h2'⟩

theorem charListLe_antisymm : ∀ x y, charListLe x y = true →
    charListLe y x = true → x = y := by
  intro x
  induction x with
  | nil =>
    intro y h1 h2
    cases y with
    | nil => rfl
    | cons b bs => simp [charListLe] at h2
  | cons a as ih =>
    intro y h1 h2
    cases y with
    | nil => simp [charListLe] at h1
    | cons b bs =>
      simp only [charListLe, Bool.or_eq_true, Bool.and_eq_true,
        decide_eq_true_eq] at h1 h2
      rcases h1 with h1 | ⟨h1, h1'⟩ <;> rcases h2 with h2 | ⟨h2, h2'⟩
      · omega
      · omega
      · omega
      · have hc : a = b := Char.eq_of_val_eq (UInt32.ext h1)
        rw [hc, ih bs h1' h2']

theorem strLe_antisymm {a b : String} (h1 : strLe a b = true)
    (h2 : strLe b a = true) : a = b := by
  have h := charListLe_antisymm _ _ h1 h2
  cases a with
  | mk da =>
    cases b with
    | mk db =>
      have hdd : da = db := by simpa [String.toList] using h
      rw [hdd]

/-- The stable sort of `get_images` produces a list sorted by `imageLe`. -/
theorem sorted_mergeSort_imageLe (l : List (String × Int)) :
    List.Pairwise (fun a b => imageLe a b = true) (l.mergeSort imageLe) :=
  @List.sorted_mergeSort _ imageLe
    (fun _ _ _ hab hbc => charListLe_trans _ _ _ hab hbc)
    (fun _ _ => charListLe_total _ _) l

/-- `mapM` over `Option` transports along permutations of the input. -/
theorem mapM_option_perm {α β : Type} (f : α → Option β) {l₁ l₂ : List α}
    (hperm : l₁.Perm l₂) :
    ∀ {r₁ : List β}, l₁.mapM f = some r₁ →
      ∃ r₂, l₂.mapM f = some r₂ ∧ r₁.Perm r₂ := by
  induction hperm with
  | nil =>
    intro r₁ h
    exact ⟨r₁, h, List.Perm.refl r₁⟩
  | cons a hp ih =>
    rename_i t₁ t₂
    intro r₁ h
    rw [List.mapM_cons] at h
    cases hfa : f a with
    | none => rw [hfa] at h; simp at h
    | some b =>
      rw [hfa] at h
      cases hmt : t₁.mapM f with
      | none => rw [hmt] at h; simp at h
      | some bs =>
        rw [hmt] at h
        simp at h
        subst h
        obtain ⟨r₂, hr₂, hpr⟩ := ih hmt
        refine ⟨b :: r₂, ?_, ?_⟩
        · rw [List.mapM_cons, hfa, hr₂]
          rfl
        · exact List.Perm.cons b hpr
  | swap x y l =>
    intro r₁ h
    rw [List.mapM_cons] at h
    cases hfy : f y with
    | none => rw [hfy] at h; simp at h
    | some vy =>
      rw [hfy] at h
      rw [List.mapM_cons] at h
      cases hfx : f x with
      | none => rw [hfx] at h; simp at h
      | some vx =>
        rw [hfx] at h
        cases hml : l.mapM f with
        | none => rw [hml] at h; simp at h
        | some vs =>
          rw [hml] at h
          simp at h
          subst h
          refine ⟨vx :: vy :: vs, ?_, ?_⟩
          · rw [List.mapM_cons, hfx, List.mapM_cons, hfy, hml]
            rfl
          · exact List.Perm.swap vx vy vs
  | trans h₁ h₂ ih₁ ih₂ =>
    intro r₁ h
    obtain ⟨r₂, hr₂, hp₂⟩ := ih₁ h
    obtain ⟨r₃, hr₃, hp₃⟩ := ih₂ hr₂
    exact ⟨r₃, hr₃, hp₂.trans hp₃⟩

/-- Two permuted lists, both sorted by `imageLe`, with pairwise distinct sort
keys, are equal. -/
theorem eq_of_perm_sorted_nodup_keys :
    ∀ (l₁ l₂ : List (String × Int)), l₁.Perm l₂ →
      List.Pairwise (fun a b => imageLe a b = true) l₁ →
      List.Pairwise (fun a b => imageLe a b = true) l₂ →
      (l₁.map sortKey).Nodup → l₁ = l₂ := by
  intro l₁
  induction l₁ with
  | nil =>
    intro l₂ hperm _ _ _
    exact List.Perm.nil_eq hperm
  | cons a t₁ ih =>
    intro l₂ hperm hs₁ hs₂ hnd
    cases l₂ with
    | nil =>
      have := hperm.length_eq
      simp at this
    | cons b t₂ =>
      have hmeq : List.map sortKey (a :: t₁) = List.map sortKey (b :: t₂) := by
        have hmap₁ : List.Pairwise (fun s t : String => strLe s t = true)
            (List.map sortKey (a :: t₁)) := by
          rw [List.pairwise_map]
          exact hs₁
        have hmap₂ : List.Pairwise (fun s t : String => strLe s t = true)
            (List.map sortKey (b :: t₂)) := by
          rw [List.pairwise_map]
          exact hs₂
        exact @List.eq_of_perm_of_sorted String (fun s t => strLe s t = true)
          ⟨fun _ _ hab hba => strLe_antisymm hab hba⟩ _ _
          (hperm.map sortKey) hmap₁ hmap₂
      have hkey : sortKey a = sortKey b := by
        simpa using congrArg (fun l => l.headD "") hmeq
      have hab : a = b := by
        have hbmem : b ∈ a :: t₁ := hperm.mem_iff.mpr (List.mem_cons_self b t₂)
        rcases List.mem_cons.mp hbmem with h | hbt₁
        · exact h.symm
        · exfalso
          have h1 : sortKey b ∈ List.map sortKey t₁ := List.mem_map_of_mem _ hbt₁
          rw [← hkey] at h1
          simp only [List.map_cons, List.nodup_cons] at hnd
          exact hnd.1 h1
      subst hab
      have hp' : t₁.Perm t₂ := hperm.cons_inv
      rw [ih t₂ hp' hs₁.of_cons hs₂.of_cons
        (by simpa only [List.map_cons, List.nodup_cons] using hnd.of_cons)]

/-- C4 (amended): `get_images` returns the parsed (joined file path, integer
label) pairs stably sorted by file name (the last path component of the
joined path): the output is sorted by that key, is a permutation of the
entries parsed in line order, and — whenever the sort keys are pairwise
distinct — is independent of the order of the lines in the labels file.  With
duplicate keys the stable sort preserves line order, so unconditional
line-order independence fails (see the counterexample). -/
theorem C4_get_images_sorted_stable (dir : String) (lines : List String)
    (md : List (String × Int)) (h : get_images dir lines = some md) :
    List.Pairwise (fun a b => imageLe a b = true) md ∧
    (∃ parsed, lines.mapM (parse_images_line dir) = some parsed ∧
      md.Perm parsed) ∧
    (∀ lines₂, lines.Perm lines₂ → (md.map sortKey).Nodup →
      get_images dir lines₂ = some md) := by
  obtain ⟨parsed, hp, hsort⟩ := Option.map_eq_some'.mp h
  refine ⟨?_, ⟨parsed, hp, ?_⟩, ?_⟩
  · rw [← hsort]
    exact sorted_mergeSort_imageLe parsed
  · rw [← hsort]
    exact List.mergeSort_perm parsed _
  · intro lines₂ hperm hnd
    obtain ⟨parsed₂, hp₂, hpermp⟩ := mapM_option_perm _ hperm hp
    unfold get_images
    rw [hp₂]
    simp only [Option.map_some', Option.some.injEq]
    have hpermTotal : (parsed₂.mergeSort imageLe).Perm md := by
      refine (List.mergeSort_perm parsed₂ _).trans ?_
      refine hpermp.symm.trans ?_
      rw [← hsort]
      exact (List.mergeSort_perm parsed _).symm
    apply eq_of_perm_sorted_nodup_keys _ _ hpermTotal
    · exact sorted_mergeSort_imageLe parsed₂
    · rw [← hsort]
      exact sorted_mergeSort_imageLe parsed
    · exact ((hpermTotal.map sortKey).nodup_iff).mpr hnd

unseal List.merge List.mergeSort in
/-- C4: the claim that the output of `get_images` is independent of the line
order of the labels file is FALSE: two entries with the same file-name sort
key keep their line order under the stable sort, so permuting the lines
permutes the output. -/
theorem C4_counterexample :
    ¬ (∀ (dir : String) (l₁ l₂ : List String), l₁.Perm l₂ →
        get_images dir l₁ = get_images dir l₂) := by
  intro h
  have h1 : get_images "d" ["x.png 0", "x.png 1"] =
      some [("d/x.png", 0), ("d/x.png", 1)] := rfl
  have h2 : get_images "d" ["x.png 1", "x.png 0"] =
      some [("d/x.png", 1), ("d/x.png", 0)] := rfl
  have hp := h "d" ["x.png 0", "x.png 1"] ["x.png 1", "x.png 0"]
    (List.Perm.swap "x.png 1" "x.png 0" [])
  rw [h1, h2] at hp
  simp at hp

unseal List.merge List.mergeSort in
/-- Witness for C4 (amended) at a two-line labels file with distinct keys. -/
theorem C4_get_images_sorted_stable_witness :
    get_images "d" ["b.png 1", "a.png 0"] =
        some [("d/a.png", 0), ("d/b.png", 1)] ∧
      (List.Pairwise (fun a b => imageLe a b = true)
          [(("d/a.png" : String), (0 : Int)), ("d/b.png", 1)] ∧
        (∃ parsed,
          (["b.png 1", "a.png 0"] : List String).mapM (parse_images_line "d") =
              some parsed ∧
            ([(("d/a.png" : String), (0 : Int)), ("d/b.png", 1)]).Perm parsed) ∧
        (∀ lines₂, (["b.png 1", "a.png 0"] : List String).Perm lines₂ →
          (([(("d/a.png" : String), (0 : Int)), ("d/b.png", 1)]).map sortKey).Nodup →
          get_images "d" lines₂ = some [("d/a.png", 0), ("d/b.png", 1)])) :=
  ⟨rfl, C4_get_images_sorted_stable "d" ["b.png 1", "a.png 0"]
    [("d/a.png", 0), ("d/b.png", 1)] rfl⟩

/-! ### `get_intermediate`: hook registration (`evalnet.py`, lines 58-81) -/

/-- The instrumentation set up by `get_intermediate`: the number of allocated
histogram trackers and, as (module index, tracker index) pairs over
`modules = list(iter_trackable_modules(net))`, the registered input-capture
and output-capture forward hooks. -/
structure HookPlan where
  numTrackers : Nat
  inputHooks : List (Nat × Nat)
  outputHooks : List (Nat × Nat)
deriving DecidableEq

/-- The registration phase of `get_intermediate(net, ...)`: `modules[0]`
raises `IndexError` when no module is trackable (modelled as `none`);
otherwise `1 + len(modules)` trackers are allocated
(`hist_tracker = [HistogramTracker() for i in range(1 + len(output_layers))]`),
an input hook feeding tracker 0 is registered on `start_layer = modules[0]`,
and the loop over `output_layers = modules` registers an output hook feeding
tracker `i + 1` on module `i`. -/
def get_intermediate_hooks (net : Module) : Option HookPlan :=
  let modules := iter_trackable_modules net
  match modules with
  | [] => none
  | _ :: _ =>
    some ⟨1 + modules.length, [(0, 0)],
      (List.range modules.length).map (fun i => (i, i + 1))⟩

/-- C6: when the network has `N ≥ 1` trackable modules, `get_intermediate`
allocates exactly `1 + N` histogram trackers, registers the input-capture
hook on exactly the first trackable module (feeding tracker 0), and registers
an output-capture hook on every trackable module `i` — the first included —
feeding tracker `i + 1`. -/
theorem C6_hook_registration (net : Module) (plan : HookPlan)
    (h : get_intermediate_hooks net = some plan) :
    plan.numTrackers = 1 + (iter_trackable_modules net).length ∧
    plan.inputHooks = [(0, 0)] ∧
    plan.outputHooks.length = (iter_trackable_modules net).length ∧
    (∀ i, i < (iter_trackable_modules net).length →
      plan.outputHooks.get? i = some (i, i + 1)) := by
  simp only [get_intermediate_hooks] at h
  cases hm : iter_trackable_modules net with
  | nil => rw [hm] at h; simp at h
  | cons m ms =>
    rw [hm] at h
    simp only [Option.some.injEq] at h
    subst h
    simp only [hm]
    refine ⟨by simp, by simp, by simp, ?_⟩
    intro i hi
    rw [List.get?_map, List.get?_range (by simpa using hi)]
    rfl

/-- Witness for C6 at a single-`Conv2d` network: 2 trackers, input hook on
module 0 feeding tracker 0, output hook on module 0 feeding tracker 1. -/
theorem C6_hook_registration_witness :
    get_intermediate_hooks (.mk (.Other "Net") [("conv", .mk .Conv2d [])]) =
        some ⟨2, [(0, 0)], [(0, 1)]⟩ ∧
      ((⟨2, [(0, 0)], [(0, 1)]⟩ : HookPlan).numTrackers =
          1 + (iter_trackable_modules
            (.mk (.Other "Net") [("conv", .mk .Conv2d [])])).length ∧
        (⟨2, [(0, 0)], [(0, 1)]⟩ : HookPlan).inputHooks = [(0, 0)] ∧
        (⟨2, [(0, 0)], [(0, 1)]⟩ : HookPlan).outputHooks.length =
          (iter_trackable_modules
            (.mk (.Other "Net") [("conv", .mk .Conv2d [])])).length ∧
        (∀ i, i < (iter_trackable_modules
            (.mk (.Other "Net") [("conv", .mk .Conv2d [])])).length →
          (⟨2, [(0, 0)], [(0, 1)]⟩ : HookPlan).outputHooks.get? i =
            some (i, i + 1))) :=
  ⟨rfl, C6_hook_registration (.mk (.Other "Net") [("conv", .mk .Conv2d [])])
    ⟨2, [(0, 0)], [(0, 1)]⟩ rfl⟩

/-! ### `main`: subcommand dispatch and error propagation (`evalnet.py`) -/

/-- The operations `main` calls whose bodies live outside the two source
files, each modelled by its outcome: `get_net` (from `lib.models` /
`lib.utils`' missing part) resolves the pretrained network; `labels_lines` is
the content of the labels file named by `VAL_SUBSET_LIST` (reading it raises
`FileNotFoundError` when absent); `run_subcommand` is the dispatched
framework work (`test_accuracy`, `test_quant`). -/
structure ExternalCalls where
  get_net : Except PyErr Module
  labels_lines : Except PyErr (List String)
  run_subcommand : Except PyErr Unit

/-- `main(args)` (`evalnet.py`, lines 107-147): resolve the network, then
dispatch on the subcommand.  No branch contains an exception handler.  The
`log-fixed` branch calls `get_images(calib_images_dir)` with one argument,
which raises `TypeError` before any data is read (an arity slip in the
source).  The remaining branches read the labels file, parse it with
`get_images` (a malformed line raises `ValueError` in `int()`/unpacking),
and run the chosen subcommand; `print-net` only iterates the classifiers and
prints.  Every step is sequenced with `Except.bind`, which returns the first
raised exception unchanged. -/
def mainModel (ext : ExternalCalls) (which : Option String)
    (val_images_dir : String) : Except PyErr Unit :=
  match ext.get_net with
  | .error e => .error e
  | .ok _net =>
    if which = some "log-fixed" then
      .error PyErr.typeError
    else
      match ext.labels_lines with
      | .error e => .error e
      | .ok lines =>
        match get_images val_images_dir lines with
        | none => .error PyErr.valueError
        | some _testing_files =>
          if which = some "test-float" ∨ which = some "test-fixed" ∨
              which = some "test-subset-fixed" then
            ext.run_subcommand
          else
            .ok ()

/-- C8: `main` never catches or transforms an exception: whatever step
raises, that exception propagates out of `main` unchanged.  (i) A failure
resolving the network propagates; (ii) under `log-fixed` the arity `TypeError`
of `get_images(calib_images_dir)` is raised; (iii) a failure reading the
labels file propagates; (iv) a labels-file parse failure surfaces as
`ValueError`; (v) a failure inside the dispatched subcommand propagates. -/
theorem C8_main_propagates_errors (ext : ExternalCalls) (which : Option String)
    (dir : String) :
    (∀ e, ext.get_net = .error e → mainModel ext which dir = .error e) ∧
    (∀ net, ext.get_net = .ok net → which = some "log-fixed" →
      mainModel ext which dir = .error .typeError) ∧
    (∀ net e, ext.get_net = .ok net → which ≠ some "log-fixed" →
      ext.labels_lines = .error e → mainModel ext which dir = .error e) ∧
    (∀ net lines, ext.get_net = .ok net → which ≠ some "log-fixed" →
      ext.labels_lines = .ok lines → get_images dir lines = none →
      mainModel ext which dir = .error .valueError) ∧
    (∀ net lines md e, ext.get_net = .ok net →
      ext.labels_lines = .ok lines → get_images dir lines = some md →
      (which = some "test-float" ∨ which = some "test-fixed" ∨
        which = some "test-subset-fixed") →
      ext.run_subcommand = .error e → mainModel ext which dir = .error e) := by
  refine ⟨?_, ?_, ?_, ?_, ?_⟩
  · intro e hg
    simp [mainModel, hg]
  · intro net hg hw
    simp [mainModel, hg, hw]
  · intro net e hg hw hl
    simp [mainModel, hg, hw, hl]
  · intro net lines hg hw hl hgi
    simp [mainModel, hg, hw, hl, hgi]
  · intro net lines md e hg hl hgi hw hr
    have hwne : ¬ which = some "log-fixed" := by
      rcases hw with h | h | h <;> rw [h] <;> simp
    simp [mainModel, hg, hwne, hl, hgi, hw, hr]

/-- Witness for C8: with the labels file missing, the `test-float` subcommand
terminates with the propagated `FileNotFoundError`. -/
theorem C8_main_propagates_errors_witness :
    (ExternalCalls.mk (.ok (.mk (.Other "Net") [])) (.error .fileNotFound)
        (.ok ())).labels_lines = .error .fileNotFound ∧
      mainModel
        (ExternalCalls.mk (.ok (.mk (.Other "Net") [])) (.error .fileNotFound)
          (.ok ())) (some "test-float") "d" = .error .fileNotFound :=
  ⟨rfl,
    ((C8_main_propagates_errors
        (ExternalCalls.mk (.ok (.mk (.Other "Net") [])) (.error .fileNotFound)
          (.ok ())) (some "test-float") "d").2.2.1)
      (.mk (.Other "Net") []) .fileNotFound rfl (by simp) rfl⟩

end Py
